import Mathlib

/-!
Verification of the chaotic-crypto repository.

Shallow embeddings of the Chebyshev polynomial evaluator
(`src/chaos/chebyshev.py`), the Chebyshev Diffie-Hellman exchange
(`src/crypto/dh.py`), the hyperchaotic block cipher (`src/crypto/feistel.py`),
the S-box generator (`src/crypto/sbox.py`) and the chaos interface
(`src/chaos/chaotic.py`, `src/chaos/attractor.py`), with proofs of the
specified properties.

Modelling conventions: Python integers are `ℤ` or `ℕ` with explicit `%`;
byte strings are `List ℕ` (each entry a byte value, the source's `& 0xFF`
reductions written `&&& 255`); floating-point
state vectors are `List ℚ`; the floating-point ODE trajectory produced by
`scipy.integrate.solve_ivp`, which has no exact discrete embedding, is
abstracted as an arbitrary sample stream wherever the verified property is
independent of the sampled values (permutation and length invariants).
-/

namespace ChebyshevPoly

/-- Loop body of `ChebyshevPoly._recursive_eval` (src/chaos/chebyshev.py,
lines 29-32): iterates `t0, t1 = t1, (2 * x * t1 - t0) % self.mod` exactly
`n` times, starting from the pair `p`. -/
def recAux (q : ℕ) (x : ℤ) : ℕ → ℤ × ℤ → ℤ × ℤ
  | 0, p => p
  | n + 1, p => recAux q x n (p.2, (2 * x * p.2 - p.1) % (q : ℤ))

/-- Model of `ChebyshevPoly._recursive_eval` (src/chaos/chebyshev.py, lines
24-33): degree 0 and 1 special-cased, otherwise the iterative recurrence
`range(2, degree + 1)`, i.e. `degree - 1` loop iterations from `(1, x)`.
The `lru_cache` memoization is semantically transparent and not modelled. -/
def recursiveEval (q : ℕ) (degree : ℕ) (x : ℤ) : ℤ :=
  if degree = 0 then 1
  else if degree = 1 then x
  else (recAux q x (degree - 1) (1, x)).2

/-- A 2x2 integer matrix, the `dtype=object` (exact big-integer) numpy
matrix used by `ChebyshevPoly._matrix_eval`; field `a` is entry (0,0),
`b` is (0,1), `c` is (1,0), `d` is (1,1). -/
structure M2 where
  a : ℤ
  b : ℤ
  c : ℤ
  d : ℤ

/-- Model of `ChebyshevPoly._matrix_multiply` (src/chaos/chebyshev.py,
lines 51-57): each entry accumulated from 0 with a reduction `% self.mod`
after every multiply-add. -/
def matrixMultiply (q : ℕ) (A B : M2) : M2 where
  a := ((0 + A.a * B.a) % (q : ℤ) + A.b * B.c) % (q : ℤ)
  b := ((0 + A.a * B.b) % (q : ℤ) + A.b * B.d) % (q : ℤ)
  c := ((0 + A.c * B.a) % (q : ℤ) + A.d * B.c) % (q : ℤ)
  d := ((0 + A.c * B.b) % (q : ℤ) + A.d * B.d) % (q : ℤ)

/-- Model of the `while power > 0` loop of `ChebyshevPoly._matrix_pow`
(src/chaos/chebyshev.py, lines 40-49): multiply `result` by `matrix` when
the current power is odd, then square `matrix` and halve the power. -/
def powLoop (q : ℕ) (m : M2) (power : ℕ) (result : M2) : M2 :=
  if h : power = 0 then result
  else powLoop q (matrixMultiply q m m) (power / 2)
    (if power % 2 = 1 then matrixMultiply q result m else result)
termination_by power
decreasing_by exact Nat.div_lt_self (Nat.pos_of_ne_zero h) one_lt_two

/-- Model of `ChebyshevPoly._matrix_pow`: binary exponentiation starting
from the identity matrix. -/
def matrixPow (q : ℕ) (m : M2) (power : ℕ) : M2 :=
  powLoop q m power ⟨1, 0, 0, 1⟩

/-- Model of `ChebyshevPoly._matrix_eval` (src/chaos/chebyshev.py, lines
35-38): power the companion matrix `[[2 * x % q, q - 1], [1, 0]]` to
`degree - 1` and return `(x * result[0][0] + result[0][1]) % q`. -/
def matrixEval (q : ℕ) (degree : ℕ) (x : ℤ) : ℤ :=
  let m : M2 := ⟨2 * x % (q : ℤ), (q : ℤ) - 1, 1, 0⟩
  let r := matrixPow q m (degree - 1)
  (x * r.a + r.b) % (q : ℤ)

/-- Interpretation of an `M2` integer matrix in `ZMod q`, used to relate the
code's mod-q integer matrix arithmetic to matrix algebra over `ZMod q`. -/
def M2.toZMod (q : ℕ) (A : M2) : Matrix (Fin 2) (Fin 2) (ZMod q) :=
  Matrix.of ![![(A.a : ZMod q), (A.b : ZMod q)], ![(A.c : ZMod q), (A.d : ZMod q)]]

/-- Model of `ChebyshevPoly.eval` (src/chaos/chebyshev.py, lines 12-22):
reduce `x` mod `q` first, special-case degree 0 and 1, use the matrix path
for degree > 100 and the direct recurrence otherwise. -/
def eval (q : ℕ) (degree : ℕ) (x : ℤ) : ℤ :=
  let x := x % (q : ℤ)
  if degree = 0 then 1
  else if degree = 1 then x
  else if degree > 100 then matrixEval q degree x
  else recursiveEval q degree x

end ChebyshevPoly

namespace ChebyshevDH

/-- Model of `ChebyshevDH.compute_shared` (src/crypto/dh.py, lines 33-34):
`self.cheby.eval(private, other_public)` over the instance modulus `q`. -/
def computeShared (q : ℕ) (priv : ℕ) (otherPublic : ℤ) : ℤ :=
  ChebyshevPoly.eval q priv otherPublic

end ChebyshevDH

namespace HyperchaosBlockCipher

/-- Model of `HyperchaosBlockCipher._pad_data` (src/crypto/feistel.py, lines
17-24): PKCS#7-style padding to a multiple of `blockSize`; an already aligned
input receives a full extra block of `blockSize` bytes of value `blockSize`. -/
def padData (blockSize : ℕ) (data : List ℕ) : List ℕ :=
  let paddingLen := blockSize - data.length % blockSize
  if paddingLen = blockSize then data ++ List.replicate blockSize blockSize
  else data ++ List.replicate paddingLen paddingLen

/-- Model of `HyperchaosBlockCipher._unpad_data` (src/crypto/feistel.py,
lines 26-31): read the last byte as the padding length and drop that many
trailing bytes (`data[:-padding_len]`; when the last byte is 0 the Python
slice `data[:-0]` is `data[:0]`, the empty string). No validation of the
padding length or of the padding bytes is performed by the source. -/
def unpadData (data : List ℕ) : List ℕ :=
  if data = [] then []
  else
    let paddingLen := data.getLastD 0
    if paddingLen = 0 then []
    else data.take (data.length - paddingLen)

/-- Model of `HyperchaosBlockCipher._hyperchaotic_round` (src/crypto/feistel.py,
lines 56-84): XOR with the cyclically repeated round key, S-box substitution
`sbox[byte % sbox_size] & 0xFF`, then neighbour mixing selected by
`round_num % 3` (rotate-right-1 / rotate-left-2 / XOR-both-neighbours, with
`& 0xFF` written `&&& 255`). Python's `(i - 1) % n` on `i = 0` is `n - 1`,
written `(i + n - 1) % n`. List indexing is total via `getD` with default 0;
the Python code only reaches in-range indices. -/
def hyperchaoticRound (sbox : List ℕ) (halfBlock roundKey : List ℕ) (roundNum : ℕ) : List ℕ :=
  let r := (List.range halfBlock.length).map fun i =>
    halfBlock.getD i 0 ^^^ roundKey.getD (i % roundKey.length) 0
  let s := r.map fun b => sbox.getD (b % sbox.length) 0 &&& 255
  (List.range s.length).map fun i =>
    let cur := s.getD i 0
    let prev := s.getD ((i + s.length - 1) % s.length) 0
    let next := s.getD ((i + 1) % s.length) 0
    if roundNum % 3 = 0 then
      (((cur >>> 1) ||| (cur <<< 7)) &&& 255) ^^^ ((prev + roundNum) &&& 255)
    else if roundNum % 3 = 1 then
      (((cur <<< 2) ||| (cur >>> 6)) &&& 255) ^^^ ((next + roundNum) &&& 255)
    else
      ((cur ^^^ prev ^^^ next) + roundNum) &&& 255

/-- Cyclic XOR `temp_L[i] = L[i] ^ transformed[i % len(transformed)]` from
`_process_block` (src/crypto/feistel.py, lines 101-103). -/
def xorCyclic (L T : List ℕ) : List ℕ :=
  (List.range L.length).map fun i => L.getD i 0 ^^^ T.getD (i % T.length) 0

/-- One round of `_process_block`: transform the right half with the
hyperchaotic round function, XOR into the left half, and swap. -/
def feistelStep (sbox : List ℕ) (roundKeys : List (List ℕ)) (rn : ℕ)
    (p : List ℕ × List ℕ) : List ℕ × List ℕ :=
  (p.2, xorCyclic p.1 (hyperchaoticRound sbox p.2 (roundKeys.getD rn []) rn))

/-- Model of `HyperchaosBlockCipher._process_block` (src/crypto/feistel.py,
lines 86-109): split into halves, run the rounds in ascending order when
encrypting and descending when decrypting, and return `right ++ left`
(undoing the final swap). -/
def processBlock (sbox : List ℕ) (roundKeys : List (List ℕ)) (rounds : ℕ)
    (encrypting : Bool) (block : List ℕ) : List ℕ :=
  let h := block.length / 2
  let seq := if encrypting then List.range rounds else (List.range rounds).reverse
  let p := seq.foldl (fun p rn => feistelStep sbox roundKeys rn p)
    (block.take h, block.drop h)
  p.2 ++ p.1

/-- XOR of a plaintext block with the previous ciphertext block (or IV),
`xored_block[i] = block[i] ^ prev_block[i]` for `i in range(block_size)`
(src/crypto/feistel.py, lines 138-140). -/
def xorBlock (blockSize : ℕ) (block prev : List ℕ) : List ℕ :=
  (List.range blockSize).map fun i => block.getD i 0 ^^^ prev.getD i 0

/-- XOR of a decrypted block with the previous ciphertext block (or IV),
`plaintext_block[i] = decrypted_block[i] ^ prev_block[i % len(prev_block)]`
(src/crypto/feistel.py, lines 181-183). -/
def xorPrev (decrypted prev : List ℕ) : List ℕ :=
  (List.range decrypted.length).map fun i =>
    decrypted.getD i 0 ^^^ prev.getD (i % prev.length) 0

/-- CBC encryption loop of `encrypt` (src/crypto/feistel.py, lines 132-145). -/
def cbcEncrypt (sbox : List ℕ) (roundKeys : List (List ℕ)) (rounds blockSize : ℕ) :
    List ℕ → List (List ℕ) → List (List ℕ)
  | _, [] => []
  | prev, b :: rest =>
    let c := processBlock sbox roundKeys rounds true (xorBlock blockSize b prev)
    c :: cbcEncrypt sbox roundKeys rounds blockSize c rest

/-- CBC decryption loop of `decrypt` (src/crypto/feistel.py, lines 173-186). -/
def cbcDecrypt (sbox : List ℕ) (roundKeys : List (List ℕ)) (rounds : ℕ) :
    List ℕ → List (List ℕ) → List (List ℕ)
  | _, [] => []
  | prev, c :: rest =>
    xorPrev (processBlock sbox roundKeys rounds false c) prev
      :: cbcDecrypt sbox roundKeys rounds c rest

/-- Block splitting `[data[i:i+block_size] for i in range(0, len(data), block_size)]`
(src/crypto/feistel.py, lines 129-130 and 170-171). -/
def toBlocks (blockSize : ℕ) (data : List ℕ) : List (List ℕ) :=
  if h : blockSize = 0 ∨ data = [] then []
  else data.take blockSize :: toBlocks blockSize (data.drop blockSize)
termination_by data.length
decreasing_by
  rw [List.length_drop]
  push_neg at h
  have : 0 < data.length := List.length_pos.mpr h.2
  omega

/-- Model of `HyperchaosBlockCipher.encrypt` (src/crypto/feistel.py, lines
111-148). The random IV (`os.urandom(block_size)`) and the round keys are
parameters: the round keys come from `_generate_keys`, a SHA-256 plus
floating-point-ODE pipeline outside exact embedding, and both `encrypt` and
`decrypt` derive the identical round-key list from the same cipher key, so
the roundtrip and length properties hold for every value of the parameter. -/
def encrypt (sbox : List ℕ) (roundKeys : List (List ℕ)) (rounds blockSize : ℕ)
    (iv plaintext : List ℕ) : List ℕ :=
  let padded := padData blockSize plaintext
  iv ++ (cbcEncrypt sbox roundKeys rounds blockSize iv (toBlocks blockSize padded)).flatten

/-- Model of `HyperchaosBlockCipher.decrypt` (src/crypto/feistel.py, lines
150-189), with the round keys as a parameter exactly as in `encrypt`. -/
def decrypt (sbox : List ℕ) (roundKeys : List (List ℕ)) (rounds blockSize : ℕ)
    (ciphertext : List ℕ) : List ℕ :=
  let iv := ciphertext.take blockSize
  let rest := ciphertext.drop blockSize
  if rest = [] then []
  else unpadData (cbcDecrypt sbox roundKeys rounds iv (toBlocks blockSize rest)).flatten

end HyperchaosBlockCipher

namespace HyperchaosBoxGenerator

/-- Simultaneous swap `sbox[i], sbox[j] = sbox[j], sbox[i]` on a list: both
reads happen before either write. -/
def swapList (l : List ℕ) (i j : ℕ) : List ℕ :=
  (l.set i (l.getD j 0)).set j (l.getD i 0)

/-- The Fisher-Yates loop `for i in range(box_size - 1, 0, -1)` shared by
`generate` and `generate_with_avalanche` (src/crypto/sbox.py, lines 62-69
and 82-89): at index `i` swap positions `i` and `swapVal i % (i + 1)`.
`fisherYates f i l` performs the iterations for indices `i, i - 1, ..., 1`. -/
def fisherYates (swapVal : ℕ → ℕ) : ℕ → List ℕ → List ℕ
  | 0, l => l
  | i + 1, l => fisherYates swapVal i (swapList l (i + 1) (swapVal (i + 1) % (i + 2)))

/-- Model of `HyperchaosBoxGenerator.generate` (src/crypto/sbox.py, lines
43-71): the identity table `list(range(box_size))` shuffled by Fisher-Yates
with swap index `int(abs(x[i] + y[i]) * (i + 1)) % (i + 1)`. The trajectory
values `x`, `y` are floats from the ODE solver; the non-negative integer
`int(abs(x[i] + y[i]) * (i + 1))` is abstracted as `swapVal i`, which ranges
over all possible trajectories and hence over all shared secrets. -/
def generate (swapVal : ℕ → ℕ) (boxSize : ℕ) : List ℕ :=
  fisherYates swapVal (boxSize - 1) (List.range boxSize)

/-- Model of `HyperchaosBoxGenerator.generate_with_avalanche`
(src/crypto/sbox.py, lines 73-91): the base S-box from `generate` followed by
a second shuffle pass whose swap index
`SecureRandom.chaotic_randint(0, i, initial_state) = 0 + value % (i - 0 + 1)`
is modelled as `avalVal i % (i + 1)`, with the 8-byte chaotic draw `value`
abstracted as `avalVal i`. -/
def generateWithAvalanche (swapVal avalVal : ℕ → ℕ) (boxSize : ℕ) : List ℕ :=
  fisherYates avalVal (boxSize - 1) (generate swapVal boxSize)

end HyperchaosBoxGenerator

namespace HyperchaosSystem

/-- Model of `HyperchaosSystem.generate_bytes` (src/chaos/attractor.py, lines
55-73): one byte appended per `i in range(num_bytes)`, taken from the
trajectory sample at index `skip + i` (the keystream is the trajectory with
the first `skip` samples discarded). The floating-point pipeline
(`solve_ivp`, `abs`, scaling, `% 256`, `int` truncation) has no exact
discrete embedding and is abstracted as the stream `sample`; the loop and
length structure is the code's. -/
def generate_bytes (sample : ℕ → ℕ) (numBytes skip : ℕ) : List ℕ :=
  (List.range numBytes).map fun i => sample (skip + i)

end HyperchaosSystem

namespace ChaosInterface

/-- Model of the initial-state validation shared by the `ChaosInterface`
operations (src/chaos/chaotic.py, lines 33-35, 46-48, 59-61 and 72-74):
`if len(initial_state) < 5: initial_state = initial_state + [0.1] * (5 - len(initial_state))`.
A state shorter than 5 entries is padded with the constant 0.1 to length 5;
any other state is passed through unchanged. Floats are modelled as `ℚ`
(0.1 = 1/10). -/
def fixState (state : List ℚ) : List ℚ :=
  if state.length < 5 then state ++ List.replicate (5 - state.length) (1/10)
  else state

/-- Model of `ChaosInterface.generate_bytes` (src/chaos/chaotic.py, lines
56-67): validate the state with `fixState`, clamp `num_bytes` to at least 1
and `skip` to at least 50, then sample as `HyperchaosSystem.generate_bytes`.
`traj` abstracts the solver's byte stream as a function of the validated
initial state and the absolute sample index. -/
def generate_bytes (traj : List ℚ → ℕ → ℕ) (state : List ℚ)
    (numBytes skip : ℕ) : List ℕ :=
  HyperchaosSystem.generate_bytes (traj (fixState state)) (max 1 numBytes) (max 50 skip)

end ChaosInterface

namespace ChebyshevPoly

lemma chebT_eval_add_two (q : ℕ) (x : ZMod q) (j : ℤ) :
    (Polynomial.Chebyshev.T (ZMod q) (j + 2)).eval x
      = 2 * x * (Polynomial.Chebyshev.T (ZMod q) (j + 1)).eval x
        - (Polynomial.Chebyshev.T (ZMod q) j).eval x := by
  rw [Polynomial.Chebyshev.T_add_two]
  simp [Polynomial.eval_mul, Polynomial.eval_sub]

lemma recAux_spec (q : ℕ) (x : ℤ) (n : ℕ) :
    ∀ (j t0 t1 : ℤ),
      (t0 : ZMod q) = (Polynomial.Chebyshev.T (ZMod q) j).eval (x : ZMod q) →
      (t1 : ZMod q) = (Polynomial.Chebyshev.T (ZMod q) (j + 1)).eval (x : ZMod q) →
      (((recAux q x n (t0, t1)).2 : ℤ) : ZMod q)
        = (Polynomial.Chebyshev.T (ZMod q) (j + n + 1)).eval (x : ZMod q) := by
  induction n with
  | zero =>
    intro j t0 t1 _ h1
    simpa [recAux] using h1
  | succ m ih =>
    intro j t0 t1 h0 h1
    have hnext : (((2 * x * t1 - t0) % (q : ℤ) : ℤ) : ZMod q)
        = (Polynomial.Chebyshev.T (ZMod q) ((j + 1) + 1)).eval (x : ZMod q) := by
      rw [ZMod.intCast_mod]
      push_cast
      rw [h0, h1, show j + 1 + 1 = j + 2 by ring, chebT_eval_add_two]
    have hrec := ih (j + 1) t1 ((2 * x * t1 - t0) % (q : ℤ)) h1 hnext
    rw [recAux]
    rw [show j + ((m + 1 : ℕ) : ℤ) + 1 = (j + 1) + m + 1 by push_cast; ring]
    exact hrec

lemma recursiveEval_cast (q : ℕ) (d : ℕ) (x : ℤ) :
    ((recursiveEval q d x : ℤ) : ZMod q)
      = (Polynomial.Chebyshev.T (ZMod q) (d : ℤ)).eval (x : ZMod q) := by
  match d with
  | 0 => simp [recursiveEval, Polynomial.Chebyshev.T_zero]
  | 1 => simp [recursiveEval, Polynomial.Chebyshev.T_one]
  | (m + 2) =>
    have h := recAux_spec q x (m + 1) 0 1 x
      (by simp [Polynomial.Chebyshev.T_zero])
      (by simp [Polynomial.Chebyshev.T_one])
    rw [recursiveEval, if_neg (by omega : ¬ (m + 2 = 0)), if_neg (by omega : ¬ (m + 2 = 1))]
    rw [show ((m + 2 : ℕ) : ℤ) = 0 + ((m + 1 : ℕ) : ℤ) + 1 by push_cast; ring]
    exact h

lemma toZMod_matrixMultiply (q : ℕ) (A B : M2) :
    (matrixMultiply q A B).toZMod q = A.toZMod q * B.toZMod q := by
  ext i j
  fin_cases i <;> fin_cases j <;>
    simp [M2.toZMod, matrixMultiply, Matrix.mul_apply, Fin.sum_univ_two,
      ZMod.intCast_mod]

lemma powLoop_spec (q : ℕ) :
    ∀ (power : ℕ) (m result : M2),
      (powLoop q m power result).toZMod q
        = result.toZMod q * (m.toZMod q) ^ power := by
  intro power
  induction power using Nat.strong_induction_on with
  | _ power ih =>
    intro m result
    rw [powLoop]
    by_cases h : power = 0
    · simp [h]
    · rw [dif_neg h]
      have hlt : power / 2 < power := Nat.div_lt_self (Nat.pos_of_ne_zero h) one_lt_two
      rw [ih (power / 2) hlt]
      have hsq : (matrixMultiply q m m).toZMod q = m.toZMod q * m.toZMod q :=
        toZMod_matrixMultiply q m m
      have hmod : 2 * (power / 2) + power % 2 = power := Nat.div_add_mod power 2
      by_cases hodd : power % 2 = 1
      · rw [if_pos hodd, toZMod_matrixMultiply, hsq, ← sq, ← pow_mul, mul_assoc,
          ← pow_succ', show 2 * (power / 2) + 1 = power by omega]
      · rw [if_neg hodd, hsq, ← sq, ← pow_mul,
          show 2 * (power / 2) = power by omega]

lemma toZMod_apply00 (q : ℕ) (A : M2) : A.toZMod q 0 0 = (A.a : ZMod q) := by
  simp [M2.toZMod]

lemma toZMod_apply01 (q : ℕ) (A : M2) : A.toZMod q 0 1 = (A.b : ZMod q) := by
  simp [M2.toZMod]

lemma companion_pow (q : ℕ) (x : ZMod q) (k : ℕ) :
    x * ((Matrix.of ![![2 * x, -1], ![1, 0]]) ^ k) 0 0
        + ((Matrix.of ![![2 * x, -1], ![1, 0]]) ^ k) 0 1
      = (Polynomial.Chebyshev.T (ZMod q) ((k : ℤ) + 1)).eval x
    ∧ x * ((Matrix.of ![![2 * x, -1], ![1, 0]]) ^ k) 1 0
        + ((Matrix.of ![![2 * x, -1], ![1, 0]]) ^ k) 1 1
      = (Polynomial.Chebyshev.T (ZMod q) (k : ℤ)).eval x := by
  induction k with
  | zero =>
    constructor
    · simp [Matrix.one_apply, Polynomial.Chebyshev.T_one]
    · simp [Matrix.one_apply, Polynomial.Chebyshev.T_zero]
  | succ k ih =>
    obtain ⟨ih1, ih2⟩ := ih
    rw [pow_succ']
    constructor
    · have goalrw : ((k + 1 : ℕ) : ℤ) + 1 = (k : ℤ) + 2 := by push_cast; ring
      rw [goalrw, chebT_eval_add_two]
      simp only [Matrix.mul_apply, Fin.sum_univ_two, Matrix.of_apply,
        Matrix.cons_val', Matrix.cons_val_zero, Matrix.cons_val_one,
        Matrix.head_cons, Matrix.empty_val', Matrix.cons_val_fin_one,
        Matrix.head_fin_const]
      linear_combination (2 * x) * ih1 - ih2
    · have goalrw : ((k + 1 : ℕ) : ℤ) = (k : ℤ) + 1 := by push_cast; ring
      rw [goalrw]
      simp only [Matrix.mul_apply, Fin.sum_univ_two, Matrix.of_apply,
        Matrix.cons_val', Matrix.cons_val_zero, Matrix.cons_val_one,
        Matrix.head_cons, Matrix.empty_val', Matrix.cons_val_fin_one,
        Matrix.head_fin_const]
      linear_combination ih1

lemma matrixEval_cast (q : ℕ) (d : ℕ) (hd : 1 ≤ d) (x : ℤ) :
    ((matrixEval q d x : ℤ) : ZMod q)
      = (Polynomial.Chebyshev.T (ZMod q) (d : ℤ)).eval (x : ZMod q) := by
  have hid : (M2.toZMod q ⟨1, 0, 0, 1⟩) = 1 := by
    ext i j
    fin_cases i <;> fin_cases j <;> simp [M2.toZMod, Matrix.one_apply]
  have hcomp : (M2.toZMod q ⟨2 * x % (q : ℤ), (q : ℤ) - 1, 1, 0⟩)
      = Matrix.of ![![2 * (x : ZMod q), -1], ![1, 0]] := by
    ext i j
    fin_cases i <;> fin_cases j <;>
      simp [M2.toZMod, ZMod.intCast_mod, ZMod.natCast_self]
  have hpow := powLoop_spec q (d - 1) ⟨2 * x % (q : ℤ), (q : ℤ) - 1, 1, 0⟩ ⟨1, 0, 0, 1⟩
  rw [hid, hcomp, one_mul] at hpow
  unfold matrixEval matrixPow
  rw [ZMod.intCast_mod]
  push_cast
  rw [← toZMod_apply00, ← toZMod_apply01, hpow]
  have := (companion_pow q (x : ZMod q) (d - 1)).1
  rw [this, show ((d - 1 : ℕ) : ℤ) + 1 = (d : ℤ) by omega]

lemma matrixEval_range (q : ℕ) (hq : 0 < q) (d : ℕ) (x : ℤ) :
    0 ≤ matrixEval q d x ∧ matrixEval q d x < q := by
  have hq' : (q : ℤ) ≠ 0 := by exact_mod_cast hq.ne'
  have hq'' : (0 : ℤ) < q := by exact_mod_cast hq
  exact ⟨Int.emod_nonneg _ hq', Int.emod_lt_of_pos _ hq''⟩

lemma recAux_snd_range (q : ℕ) (hq : 0 < q) (x : ℤ) (n : ℕ) :
    ∀ (t0 t1 : ℤ), 0 ≤ (recAux q x (n + 1) (t0, t1)).2
      ∧ (recAux q x (n + 1) (t0, t1)).2 < q := by
  induction n with
  | zero =>
    intro t0 t1
    have hq' : (q : ℤ) ≠ 0 := by exact_mod_cast hq.ne'
    have hq'' : (0 : ℤ) < q := by exact_mod_cast hq
    exact ⟨Int.emod_nonneg _ hq', Int.emod_lt_of_pos _ hq''⟩
  | succ m ih =>
    intro t0 t1
    exact ih t1 ((2 * x * t1 - t0) % (q : ℤ))

lemma recursiveEval_range (q : ℕ) (hq : 0 < q) (d : ℕ) (hd : 2 ≤ d) (x : ℤ) :
    0 ≤ recursiveEval q d x ∧ recursiveEval q d x < q := by
  match d, hd with
  | (m + 2), _ =>
    rw [recursiveEval]
    norm_num
    exact recAux_snd_range q hq x m 1 x

lemma eval_cast (q : ℕ) (d : ℕ) (x : ℤ) :
    ((eval q d x : ℤ) : ZMod q)
      = (Polynomial.Chebyshev.T (ZMod q) (d : ℤ)).eval (x : ZMod q) := by
  rw [eval]
  by_cases h0 : d = 0
  · simp [h0, Polynomial.Chebyshev.T_zero]
  by_cases h1 : d = 1
  · simp [h1, Polynomial.Chebyshev.T_one, ZMod.intCast_mod]
  by_cases h100 : d > 100
  · simp only [if_neg h0, if_neg h1, if_pos h100]
    rw [matrixEval_cast q d (by omega) (x % (q : ℤ)), ZMod.intCast_mod]
  · simp only [if_neg h0, if_neg h1, if_neg h100]
    rw [recursiveEval_cast q d (x % (q : ℤ)), ZMod.intCast_mod]

lemma eval_range (q : ℕ) (hq : 2 ≤ q) (d : ℕ) (x : ℤ) :
    0 ≤ eval q d x ∧ eval q d x < q := by
  have hq0 : 0 < q := by omega
  have hq' : (q : ℤ) ≠ 0 := by exact_mod_cast hq0.ne'
  have hq'' : (0 : ℤ) < q := by exact_mod_cast hq0
  rw [eval]
  by_cases h0 : d = 0
  · rw [if_pos h0]
    constructor
    · norm_num
    · exact_mod_cast hq
  by_cases h1 : d = 1
  · rw [if_neg h0, if_pos h1]
    exact ⟨Int.emod_nonneg _ hq', Int.emod_lt_of_pos _ hq''⟩
  by_cases h100 : d > 100
  · rw [if_neg h0, if_neg h1, if_pos h100]
    exact matrixEval_range q hq0 d _
  · rw [if_neg h0, if_neg h1, if_neg h100]
    exact recursiveEval_range q hq0 d (by omega) _

lemma int_eq_of_cast_zmod (q : ℕ) (u v : ℤ) (hu0 : 0 ≤ u) (hu : u < q)
    (hv0 : 0 ≤ v) (hv : v < q) (h : (u : ZMod q) = (v : ZMod q)) : u = v := by
  rw [ZMod.intCast_eq_intCast_iff'] at h
  rwa [Int.emod_eq_of_lt hu0 hu, Int.emod_eq_of_lt hv0 hv] at h

lemma chebT_eval_comp (q : ℕ) (a b : ℕ) (y : ZMod q) :
    (Polynomial.Chebyshev.T (ZMod q) (a : ℤ)).eval
        ((Polynomial.Chebyshev.T (ZMod q) (b : ℤ)).eval y)
      = (Polynomial.Chebyshev.T (ZMod q) ((a * b : ℕ) : ℤ)).eval y := by
  rw [← Polynomial.eval_comp, ← Polynomial.Chebyshev.T_mul, Nat.cast_mul]

end ChebyshevPoly

/-- C3: for every prime modulus q, every pair of private exponents a, b and
every domain parameter p, `compute_shared(a, T_b(p)) = compute_shared(b, T_a(p))`;
that is, the two shared secrets that `simulate_exchange` computes from the raw
public values are always equal. -/
theorem ChebyshevDH.computeShared_comm (q : ℕ) (hq : Nat.Prime q) (a b : ℕ) (p : ℤ) :
    ChebyshevDH.computeShared q a (ChebyshevDH.computeShared q b p)
      = ChebyshevDH.computeShared q b (ChebyshevDH.computeShared q a p) := by
  have h2 : 2 ≤ q := hq.two_le
  unfold ChebyshevDH.computeShared
  have hL := ChebyshevPoly.eval_range q h2 a (ChebyshevPoly.eval q b p)
  have hR := ChebyshevPoly.eval_range q h2 b (ChebyshevPoly.eval q a p)
  apply ChebyshevPoly.int_eq_of_cast_zmod q _ _ hL.1 hL.2 hR.1 hR.2
  rw [ChebyshevPoly.eval_cast, ChebyshevPoly.eval_cast, ChebyshevPoly.eval_cast,
    ChebyshevPoly.eval_cast, ChebyshevPoly.chebT_eval_comp,
    ChebyshevPoly.chebT_eval_comp, Nat.mul_comm]

/-- Witness for C3 at the concrete domain q = 5, a = 2, b = 3, p = 7. -/
theorem ChebyshevDH.computeShared_comm_witness :
    Nat.Prime 5
    ∧ ChebyshevDH.computeShared 5 2 (ChebyshevDH.computeShared 5 3 7)
        = ChebyshevDH.computeShared 5 3 (ChebyshevDH.computeShared 5 2 7) :=
  ⟨by norm_num, ChebyshevDH.computeShared_comm 5 (by norm_num) 2 3 7⟩

/-- C5: for every x, prime modulus q and degree in {99, 100, 101} (the
degree = 100 path-selection boundary), the direct iterative recurrence and
the 2x2 companion-matrix binary-exponentiation evaluation agree. -/
theorem ChebyshevPoly.recursive_matrix_agree (q : ℕ) (hq : Nat.Prime q) (d : ℕ)
    (hd : d = 99 ∨ d = 100 ∨ d = 101) (x : ℤ) :
    ChebyshevPoly.recursiveEval q d x = ChebyshevPoly.matrixEval q d x := by
  have hq2 : 2 ≤ q := hq.two_le
  have hq0 : 0 < q := by omega
  have hd2 : 2 ≤ d := by rcases hd with h | h | h <;> omega
  have hd1 : 1 ≤ d := by omega
  have hr := ChebyshevPoly.recursiveEval_range q hq0 d hd2 x
  have hm := ChebyshevPoly.matrixEval_range q hq0 d x
  apply ChebyshevPoly.int_eq_of_cast_zmod q _ _ hr.1 hr.2 hm.1 hm.2
  rw [ChebyshevPoly.recursiveEval_cast, ChebyshevPoly.matrixEval_cast q d hd1]

/-- Witness for C5 at q = 5, degree = 100, x = 3. -/
theorem ChebyshevPoly.recursive_matrix_agree_witness :
    Nat.Prime 5 ∧ (100 = 99 ∨ 100 = 100 ∨ 100 = 101)
    ∧ ChebyshevPoly.recursiveEval 5 100 3 = ChebyshevPoly.matrixEval 5 100 3 :=
  ⟨by norm_num, by norm_num,
    ChebyshevPoly.recursive_matrix_agree 5 (by norm_num) 100 (by norm_num) 3⟩

namespace HyperchaosBlockCipher

lemma length_xorCyclic (L T : List ℕ) : (xorCyclic L T).length = L.length := by
  simp [xorCyclic]

lemma length_hyperchaoticRound (sbox half rk : List ℕ) (rn : ℕ) :
    (hyperchaoticRound sbox half rk rn).length = half.length := by
  simp [hyperchaoticRound]

lemma length_xorBlock (bs : ℕ) (b prev : List ℕ) : (xorBlock bs b prev).length = bs := by
  simp [xorBlock]

lemma length_xorPrev (d prev : List ℕ) : (xorPrev d prev).length = d.length := by
  simp [xorPrev]

lemma getD_map_range (f : ℕ → ℕ) (n i : ℕ) (h : i < n) :
    (((List.range n).map f).getD i 0) = f i := by
  rw [List.getD_eq_getElem?_getD, List.getElem?_map, List.getElem?_range h]
  rfl

lemma map_getD_range (b : List ℕ) : (List.range b.length).map (fun i => b.getD i 0) = b := by
  apply List.ext_getElem
  · simp
  · intro i h1 h2
    simp only [List.getElem_map, List.getElem_range]
    rw [List.getD_eq_getElem?_getD, List.getElem?_eq_getElem h2]
    rfl

lemma xorCyclic_getD (L T : List ℕ) (i : ℕ) (h : i < L.length) :
    (xorCyclic L T).getD i 0 = L.getD i 0 ^^^ T.getD (i % T.length) 0 :=
  getD_map_range _ _ _ h

lemma xorCyclic_xorCyclic (L T : List ℕ) : xorCyclic (xorCyclic L T) T = L := by
  apply List.ext_getElem
  · simp [length_xorCyclic]
  · intro i h1 h2
    have hiL : i < L.length := h2
    have hx : i < (xorCyclic L T).length := by rw [length_xorCyclic]; exact hiL
    calc (xorCyclic (xorCyclic L T) T)[i]
        = (xorCyclic (xorCyclic L T) T).getD i 0 := by
          rw [List.getD_eq_getElem?_getD, List.getElem?_eq_getElem h1]; rfl
      _ = (xorCyclic L T).getD i 0 ^^^ T.getD (i % T.length) 0 := by
          rw [xorCyclic_getD _ _ _ hx]
      _ = (L.getD i 0 ^^^ T.getD (i % T.length) 0) ^^^ T.getD (i % T.length) 0 := by
          rw [xorCyclic_getD _ _ _ hiL]
      _ = L.getD i 0 := Nat.xor_cancel_right _ _
      _ = L[i] := by
          rw [List.getD_eq_getElem?_getD, List.getElem?_eq_getElem h2]; rfl

lemma feistelStep_invol (sbox : List ℕ) (rks : List (List ℕ)) (rn : ℕ)
    (p : List ℕ × List ℕ) :
    feistelStep sbox rks rn (Prod.swap (feistelStep sbox rks rn p)) = Prod.swap p := by
  cases p with
  | mk L R => simp [feistelStep, Prod.swap, xorCyclic_xorCyclic]

lemma foldl_feistel_reverse (sbox : List ℕ) (rks : List (List ℕ)) :
    ∀ (order : List ℕ) (p : List ℕ × List ℕ),
      order.reverse.foldl (fun p rn => feistelStep sbox rks rn p)
        (Prod.swap (order.foldl (fun p rn => feistelStep sbox rks rn p) p))
      = Prod.swap p := by
  intro order
  induction order with
  | nil => intro p; rfl
  | cons k rest ih =>
    intro p
    rw [List.reverse_cons, List.foldl_append, List.foldl_cons]
    simp only [List.foldl_cons, List.foldl_nil]
    rw [ih (feistelStep sbox rks k p)]
    exact feistelStep_invol sbox rks k p

lemma foldl_feistel_lengths (sbox : List ℕ) (rks : List (List ℕ)) (n : ℕ) :
    ∀ (order : List ℕ) (p : List ℕ × List ℕ),
      p.1.length = n → p.2.length = n →
      (order.foldl (fun p rn => feistelStep sbox rks rn p) p).1.length = n
      ∧ (order.foldl (fun p rn => feistelStep sbox rks rn p) p).2.length = n := by
  intro order
  induction order with
  | nil => intro p h1 h2; exact ⟨h1, h2⟩
  | cons k rest ih =>
    intro p h1 h2
    rw [List.foldl_cons]
    exact ih _ (by simp [feistelStep, h2]) (by simp [feistelStep, length_xorCyclic, h1])

lemma foldl_feistel_length_sum (sbox : List ℕ) (rks : List (List ℕ)) :
    ∀ (order : List ℕ) (p : List ℕ × List ℕ),
      (order.foldl (fun p rn => feistelStep sbox rks rn p) p).1.length
        + (order.foldl (fun p rn => feistelStep sbox rks rn p) p).2.length
      = p.1.length + p.2.length := by
  intro order
  induction order with
  | nil => intro p; rfl
  | cons k rest ih =>
    intro p
    rw [List.foldl_cons, ih]
    simp [feistelStep, length_xorCyclic]
    omega

lemma processBlock_length (sbox : List ℕ) (rks : List (List ℕ)) (rounds : ℕ)
    (e : Bool) (block : List ℕ) :
    (processBlock sbox rks rounds e block).length = block.length := by
  unfold processBlock
  rw [List.length_append]
  rw [Nat.add_comm]
  rw [foldl_feistel_length_sum]
  simp [Nat.min_def, Nat.div_le_self]

end HyperchaosBlockCipher

namespace HyperchaosBlockCipher

lemma processBlock_roundtrip (sbox : List ℕ) (rks : List (List ℕ)) (rounds : ℕ)
    (block : List ℕ) (heven : block.length % 2 = 0) :
    processBlock sbox rks rounds false (processBlock sbox rks rounds true block) = block := by
  have hdiv2 : block.length / 2 * 2 = block.length := by omega
  have hL : (block.take (block.length / 2)).length = block.length / 2 := by
    rw [List.length_take]; simp [Nat.min_def]; omega
  have hR : (block.drop (block.length / 2)).length = block.length / 2 := by
    rw [List.length_drop]; omega
  obtain ⟨h1, h2⟩ := foldl_feistel_lengths sbox rks (block.length / 2) (List.range rounds)
    (block.take (block.length / 2), block.drop (block.length / 2)) hL hR
  have hswap := foldl_feistel_reverse sbox rks (List.range rounds)
    (block.take (block.length / 2), block.drop (block.length / 2))
  set p := (List.range rounds).foldl (fun p rn => feistelStep sbox rks rn p)
    (block.take (block.length / 2), block.drop (block.length / 2)) with hp
  show ((List.range rounds).reverse.foldl (fun p rn => feistelStep sbox rks rn p)
      ((p.2 ++ p.1).take ((p.2 ++ p.1).length / 2),
       (p.2 ++ p.1).drop ((p.2 ++ p.1).length / 2))).2
    ++ ((List.range rounds).reverse.foldl (fun p rn => feistelStep sbox rks rn p)
      ((p.2 ++ p.1).take ((p.2 ++ p.1).length / 2),
       (p.2 ++ p.1).drop ((p.2 ++ p.1).length / 2))).1 = block
  have hlen2 : (p.2 ++ p.1).length / 2 = block.length / 2 := by
    rw [List.length_append, h1, h2]; omega
  rw [hlen2, List.take_left' h2, List.drop_left' h2]
  rw [show (p.2, p.1) = Prod.swap p from rfl, hswap]
  exact List.take_append_drop _ block

lemma padData_eq (bs : ℕ) (data : List ℕ) :
    padData bs data
      = data ++ List.replicate (bs - data.length % bs) (bs - data.length % bs) := by
  simp only [padData]
  split_ifs with h
  · rw [h]
  · rfl

lemma padData_length (bs : ℕ) (hbs : 0 < bs) (data : List ℕ) :
    (padData bs data).length = bs * (data.length / bs + 1) := by
  rw [padData_eq, List.length_append, List.length_replicate]
  have hmod := Nat.mod_lt data.length hbs
  have hdm := Nat.div_add_mod data.length bs
  have hmul : bs * (data.length / bs + 1) = bs * (data.length / bs) + bs := by ring
  omega

lemma unpadData_padData (bs : ℕ) (hbs : 0 < bs) (data : List ℕ) :
    unpadData (padData bs data) = data := by
  rw [padData_eq]
  have hk : 0 < bs - data.length % bs := by
    have := Nat.mod_lt data.length hbs
    omega
  set k := bs - data.length % bs with hkdef
  have hrepAll : ∀ v : ℕ, List.replicate k v = List.replicate (k - 1) v ++ [v] := by
    intro v
    conv_lhs => rw [show k = (k - 1) + 1 by omega]
    rw [List.replicate_succ']
  have hrep := hrepAll k
  have hne : data ++ List.replicate k k ≠ [] := by
    intro h
    have := congrArg List.length h
    simp at this
    omega
  have hlast : (data ++ List.replicate k k).getLastD 0 = k := by
    rw [hrep, ← List.append_assoc, List.getLastD_concat]
  have hbody : unpadData (data ++ List.replicate k k)
      = if (data ++ List.replicate k k).getLastD 0 = 0 then []
        else (data ++ List.replicate k k).take
          ((data ++ List.replicate k k).length
            - (data ++ List.replicate k k).getLastD 0) := by
    rw [unpadData, if_neg hne]
  rw [hbody, hlast, if_neg (by omega : ¬ (k = 0))]
  rw [List.length_append, List.length_replicate]
  rw [show data.length + k - k = data.length by omega]
  exact List.take_left data _

end HyperchaosBlockCipher

namespace HyperchaosBlockCipher

lemma toBlocks_nil (bs : ℕ) : toBlocks bs [] = [] := by
  rw [toBlocks]
  simp

lemma toBlocks_cons (bs : ℕ) (hbs : 0 < bs) (data : List ℕ) (hne : data ≠ []) :
    toBlocks bs data = data.take bs :: toBlocks bs (data.drop bs) := by
  rw [toBlocks]
  rw [dif_neg (by push_neg; exact ⟨by omega, hne⟩)]

lemma flatten_toBlocks (bs : ℕ) (hbs : 0 < bs) :
    ∀ (n : ℕ) (data : List ℕ), data.length = n → (toBlocks bs data).flatten = data := by
  intro n
  induction n using Nat.strong_induction_on with
  | _ n ih =>
    intro data hn
    by_cases hd : data = []
    · subst hd
      rw [toBlocks_nil]
      rfl
    · rw [toBlocks_cons bs hbs data hd, List.flatten_cons]
      have hpos : 0 < data.length := List.length_pos.mpr hd
      have hlt : (data.drop bs).length < n := by
        rw [List.length_drop]
        omega
      rw [ih _ hlt (data.drop bs) rfl]
      exact List.take_append_drop bs data

lemma mem_toBlocks_length (bs : ℕ) (hbs : 0 < bs) :
    ∀ (n : ℕ) (data : List ℕ), data.length = n → bs ∣ data.length →
      ∀ b ∈ toBlocks bs data, b.length = bs := by
  intro n
  induction n using Nat.strong_induction_on with
  | _ n ih =>
    intro data hn hdvd b hb
    by_cases hd : data = []
    · subst hd
      rw [toBlocks_nil] at hb
      simp at hb
    · rw [toBlocks_cons bs hbs data hd] at hb
      have hpos : 0 < data.length := List.length_pos.mpr hd
      have hle : bs ≤ data.length := Nat.le_of_dvd hpos hdvd
      rcases List.mem_cons.mp hb with h | h
      · subst h
        rw [List.length_take]
        simp [Nat.min_def]
        omega
      · have hdvd' : bs ∣ (data.drop bs).length := by
          rw [List.length_drop]
          exact Nat.dvd_sub' hdvd dvd_rfl
        have hlt : (data.drop bs).length < n := by
          rw [List.length_drop]
          omega
        exact ih _ hlt (data.drop bs) rfl hdvd' b h

lemma toBlocks_flatten (bs : ℕ) (hbs : 0 < bs) :
    ∀ (blocks : List (List ℕ)), (∀ b ∈ blocks, b.length = bs) →
      toBlocks bs blocks.flatten = blocks := by
  intro blocks
  induction blocks with
  | nil =>
    intro _
    exact toBlocks_nil bs
  | cons b rest ih =>
    intro hall
    have hb : b.length = bs := hall b (List.mem_cons_self b _)
    have hbne : b ≠ [] := by
      intro h
      rw [h] at hb
      simp at hb
      omega
    rw [List.flatten_cons]
    have hne : b ++ rest.flatten ≠ [] := by
      intro h
      exact hbne (List.append_eq_nil.mp h).1
    rw [toBlocks_cons bs hbs _ hne, List.take_left' hb, List.drop_left' hb]
    rw [ih (fun x hx => hall x (List.mem_cons_of_mem _ hx))]

lemma flatten_length_uniform (bs : ℕ) :
    ∀ (blocks : List (List ℕ)), (∀ b ∈ blocks, b.length = bs) →
      blocks.flatten.length = blocks.length * bs := by
  intro blocks
  induction blocks with
  | nil => intro _; simp
  | cons b rest ih =>
    intro hall
    rw [List.flatten_cons, List.length_append, List.length_cons,
      hall b (List.mem_cons_self b _), ih (fun x hx => hall x (List.mem_cons_of_mem _ hx))]
    ring

lemma cbcEncrypt_mem_length (sbox : List ℕ) (rks : List (List ℕ)) (rounds bs : ℕ) :
    ∀ (blocks : List (List ℕ)) (prev : List ℕ),
      ∀ c ∈ cbcEncrypt sbox rks rounds bs prev blocks, c.length = bs := by
  intro blocks
  induction blocks with
  | nil =>
    intro prev c hc
    simp [cbcEncrypt] at hc
  | cons b rest ih =>
    intro prev c hc
    rw [cbcEncrypt] at hc
    rcases List.mem_cons.mp hc with h | h
    · subst h
      rw [processBlock_length, length_xorBlock]
    · exact ih _ c h

lemma cbcEncrypt_length (sbox : List ℕ) (rks : List (List ℕ)) (rounds bs : ℕ) :
    ∀ (blocks : List (List ℕ)) (prev : List ℕ),
      (cbcEncrypt sbox rks rounds bs prev blocks).length = blocks.length := by
  intro blocks
  induction blocks with
  | nil => intro prev; rfl
  | cons b rest ih =>
    intro prev
    rw [cbcEncrypt, List.length_cons, List.length_cons, ih]

lemma xorPrev_xorBlock (bs : ℕ) (b prev : List ℕ) (hb : b.length = bs)
    (hp : prev.length = bs) :
    xorPrev (xorBlock bs b prev) prev = b := by
  have hxb : (xorBlock bs b prev).length = bs := length_xorBlock bs b prev
  apply List.ext_getElem
  · rw [length_xorPrev, hxb, hb]
  · intro i h1 h2
    have hib : i < bs := by
      rw [length_xorPrev, hxb] at h1
      exact h1
    simp only [xorPrev, List.getElem_map, List.getElem_range]
    rw [hp, Nat.mod_eq_of_lt hib]
    rw [show (xorBlock bs b prev).getD i 0 = b.getD i 0 ^^^ prev.getD i 0 from
      getD_map_range _ _ _ hib]
    rw [Nat.xor_cancel_right]
    rw [List.getD_eq_getElem?_getD, List.getElem?_eq_getElem h2]
    rfl

lemma cbc_roundtrip (sbox : List ℕ) (rks : List (List ℕ)) (rounds bs : ℕ)
    (heven : bs % 2 = 0) :
    ∀ (blocks : List (List ℕ)) (prev : List ℕ), prev.length = bs →
      (∀ b ∈ blocks, b.length = bs) →
      cbcDecrypt sbox rks rounds prev (cbcEncrypt sbox rks rounds bs prev blocks)
        = blocks := by
  intro blocks
  induction blocks with
  | nil => intro prev _ _; rfl
  | cons b rest ih =>
    intro prev hprev hall
    have hb : b.length = bs := hall b (List.mem_cons_self b _)
    rw [cbcEncrypt, cbcDecrypt]
    have hxlen : (xorBlock bs b prev).length = bs := length_xorBlock bs b prev
    have hround : processBlock sbox rks rounds false
        (processBlock sbox rks rounds true (xorBlock bs b prev))
        = xorBlock bs b prev :=
      processBlock_roundtrip sbox rks rounds _ (by rw [hxlen]; exact heven)
    rw [hround, xorPrev_xorBlock bs b prev hb hprev]
    rw [ih _ (by rw [processBlock_length, hxlen]) (fun x hx => hall x (List.mem_cons_of_mem _ hx))]

end HyperchaosBlockCipher

/-- C1: for every S-box, round-key list, round count, positive even block
size, block-sized IV and every plaintext (empty, block-aligned or not),
decrypting the encryption returns exactly the original plaintext. -/
theorem HyperchaosBlockCipher.decrypt_encrypt (sbox : List ℕ)
    (roundKeys : List (List ℕ)) (rounds blockSize : ℕ) (iv plaintext : List ℕ)
    (hbs : 0 < blockSize) (heven : blockSize % 2 = 0) (hiv : iv.length = blockSize) :
    HyperchaosBlockCipher.decrypt sbox roundKeys rounds blockSize
      (HyperchaosBlockCipher.encrypt sbox roundKeys rounds blockSize iv plaintext)
      = plaintext := by
  have hpadlen : (padData blockSize plaintext).length
      = blockSize * (plaintext.length / blockSize + 1) :=
    padData_length blockSize hbs plaintext
  have hdvd : blockSize ∣ (padData blockSize plaintext).length := ⟨_, hpadlen⟩
  have hge : blockSize ≤ blockSize * (plaintext.length / blockSize + 1) := by
    have := Nat.mul_le_mul_left blockSize
      (Nat.succ_le_succ (Nat.zero_le (plaintext.length / blockSize)))
    simpa using this
  have hpadne : padData blockSize plaintext ≠ [] := by
    intro h
    rw [h] at hpadlen
    simp at hpadlen
    omega
  have hallb : ∀ b ∈ toBlocks blockSize (padData blockSize plaintext),
      b.length = blockSize :=
    mem_toBlocks_length blockSize hbs _ _ rfl hdvd
  have halle : ∀ c ∈ cbcEncrypt sbox roundKeys rounds blockSize iv
      (toBlocks blockSize (padData blockSize plaintext)), c.length = blockSize :=
    cbcEncrypt_mem_length sbox roundKeys rounds blockSize _ iv
  set F := (cbcEncrypt sbox roundKeys rounds blockSize iv
    (toBlocks blockSize (padData blockSize plaintext))).flatten with hF
  have hfne : F ≠ [] := by
    rw [hF, toBlocks_cons blockSize hbs _ hpadne, cbcEncrypt, List.flatten_cons]
    intro h
    have h1 := (List.append_eq_nil.mp h).1
    have h2 := congrArg List.length h1
    rw [processBlock_length, length_xorBlock] at h2
    simp at h2
    omega
  have hencrypt : HyperchaosBlockCipher.encrypt sbox roundKeys rounds blockSize iv plaintext
      = iv ++ F := rfl
  rw [hencrypt]
  have hdecrypt : HyperchaosBlockCipher.decrypt sbox roundKeys rounds blockSize (iv ++ F)
      = if (iv ++ F).drop blockSize = [] then []
        else unpadData (cbcDecrypt sbox roundKeys rounds ((iv ++ F).take blockSize)
          (toBlocks blockSize ((iv ++ F).drop blockSize))).flatten := rfl
  rw [hdecrypt, List.take_left' hiv, List.drop_left' hiv, if_neg hfne, hF]
  rw [toBlocks_flatten blockSize hbs _ halle]
  rw [cbc_roundtrip sbox roundKeys rounds blockSize heven _ iv hiv hallb]
  rw [flatten_toBlocks blockSize hbs _ (padData blockSize plaintext) rfl]
  exact unpadData_padData blockSize hbs plaintext

/-- Witness for C1 with block size 2, 2 rounds, S-box [3,1,0,2], round keys
[[5],[9]], IV [7,9] and the non-aligned plaintext [5]. -/
theorem HyperchaosBlockCipher.decrypt_encrypt_witness :
    0 < 2 ∧ 2 % 2 = 0 ∧ ([7, 9] : List ℕ).length = 2
    ∧ HyperchaosBlockCipher.decrypt [3, 1, 0, 2] [[5], [9]] 2 2
        (HyperchaosBlockCipher.encrypt [3, 1, 0, 2] [[5], [9]] 2 2 [7, 9] [5])
      = [5] :=
  ⟨by norm_num, by norm_num, by decide,
    HyperchaosBlockCipher.decrypt_encrypt [3, 1, 0, 2] [[5], [9]] 2 2 [7, 9] [5]
      (by norm_num) (by norm_num) (by decide)⟩

/-- C10: for every plaintext and key material, the output of encrypt has
length exactly (floor(len(plaintext) / blockSize) + 2) * blockSize: one IV
block plus the padded plaintext, which always gains at least one pad byte. -/
theorem HyperchaosBlockCipher.encrypt_length (sbox : List ℕ)
    (roundKeys : List (List ℕ)) (rounds blockSize : ℕ) (iv plaintext : List ℕ)
    (hbs : 0 < blockSize) (hiv : iv.length = blockSize) :
    (HyperchaosBlockCipher.encrypt sbox roundKeys rounds blockSize iv plaintext).length
      = (plaintext.length / blockSize + 2) * blockSize := by
  have hpadlen := padData_length blockSize hbs plaintext
  have hdvd : blockSize ∣ (padData blockSize plaintext).length := ⟨_, hpadlen⟩
  have hallb := mem_toBlocks_length blockSize hbs _ (padData blockSize plaintext) rfl hdvd
  have halle := cbcEncrypt_mem_length sbox roundKeys rounds blockSize
    (toBlocks blockSize (padData blockSize plaintext)) iv
  have hencrypt : HyperchaosBlockCipher.encrypt sbox roundKeys rounds blockSize iv plaintext
      = iv ++ (cbcEncrypt sbox roundKeys rounds blockSize iv
          (toBlocks blockSize (padData blockSize plaintext))).flatten := rfl
  rw [hencrypt, List.length_append, hiv]
  rw [flatten_length_uniform blockSize _ halle]
  rw [cbcEncrypt_length]
  have hcount : (toBlocks blockSize (padData blockSize plaintext)).length * blockSize
      = (padData blockSize plaintext).length := by
    rw [← flatten_length_uniform blockSize _ hallb,
      flatten_toBlocks blockSize hbs _ (padData blockSize plaintext) rfl]
  rw [hcount, hpadlen]
  ring

/-- Witness for C10 with block size 2 and a length-3 plaintext:
(3 / 2 + 2) * 2 = 6. -/
theorem HyperchaosBlockCipher.encrypt_length_witness :
    0 < 2 ∧ ([7, 9] : List ℕ).length = 2
    ∧ (HyperchaosBlockCipher.encrypt [3, 1, 0, 2] [[5], [9]] 2 2 [7, 9]
        [1, 2, 3]).length = (([1, 2, 3] : List ℕ).length / 2 + 2) * 2 :=
  ⟨by norm_num, by decide,
    HyperchaosBlockCipher.encrypt_length [3, 1, 0, 2] [[5], [9]] 2 2 [7, 9] [1, 2, 3]
      (by norm_num) (by decide)⟩

/-- C7: padding is PKCS#7-style: for every input some pad length k between 1
and blockSize is appended as k bytes of value k, making the result a multiple
of blockSize, and an already aligned input receives a full extra block of
blockSize bytes each equal to blockSize. -/
theorem HyperchaosBlockCipher.padData_spec (blockSize : ℕ) (hbs : 0 < blockSize)
    (data : List ℕ) :
    (∃ k, 1 ≤ k ∧ k ≤ blockSize
      ∧ HyperchaosBlockCipher.padData blockSize data = data ++ List.replicate k k
      ∧ (HyperchaosBlockCipher.padData blockSize data).length % blockSize = 0)
    ∧ (data.length % blockSize = 0
        → HyperchaosBlockCipher.padData blockSize data
          = data ++ List.replicate blockSize blockSize) := by
  have hmod := Nat.mod_lt data.length hbs
  constructor
  · refine ⟨blockSize - data.length % blockSize, by omega, by omega, padData_eq _ _, ?_⟩
    rw [padData_length blockSize hbs data]
    exact Nat.mul_mod_right blockSize _
  · intro h
    rw [padData_eq, h, Nat.sub_zero]

/-- Witness for C7 at block size 8 with the unaligned input [1,2,3] (pad 5)
and, through the aligned conjunct, any multiple-of-8 input. -/
theorem HyperchaosBlockCipher.padData_spec_witness :
    0 < 8
    ∧ ((∃ k, 1 ≤ k ∧ k ≤ 8
        ∧ HyperchaosBlockCipher.padData 8 [1, 2, 3] = [1, 2, 3] ++ List.replicate k k
        ∧ (HyperchaosBlockCipher.padData 8 [1, 2, 3]).length % 8 = 0)
      ∧ (([1, 2, 3] : List ℕ).length % 8 = 0
          → HyperchaosBlockCipher.padData 8 [1, 2, 3]
            = [1, 2, 3] ++ List.replicate 8 8)) :=
  ⟨by norm_num, HyperchaosBlockCipher.padData_spec 8 (by norm_num) [1, 2, 3]⟩

/-- C2 (the code lacks the validation the claim describes): `_unpad_data` on
the 8-byte input [65,66,67,68,69,70,2,3], whose last byte 3 is a plausible
pad length but whose three trailing bytes 70, 2, 3 are not all equal to 3
(malformed padding), silently returns the truncated non-empty prefix
[65,66,67,68,69] rather than an empty output or an error. -/
theorem HyperchaosBlockCipher.unpadData_silently_mistruncates :
    HyperchaosBlockCipher.unpadData [65, 66, 67, 68, 69, 70, 2, 3]
      = [65, 66, 67, 68, 69]
    ∧ HyperchaosBlockCipher.unpadData [65, 66, 67, 68, 69, 70, 2, 3] ≠ [] := by
  constructor
  · decide
  · decide

namespace HyperchaosBoxGenerator

lemma getD_cons_set_perm : ∀ (t : List ℕ) (m : ℕ) (a : ℕ), m < t.length →
    (t.getD m 0 :: t.set m a).Perm (a :: t) := by
  intro t
  induction t with
  | nil =>
    intro m a h
    simp at h
  | cons x r ih =>
    intro m a h
    cases m with
    | zero =>
      simp only [List.getD_cons_zero, List.set_cons_zero]
      exact List.Perm.swap a x r
    | succ k =>
      have hk : k < r.length := by simpa using h
      simp only [List.getD_cons_succ, List.set_cons_succ]
      exact ((List.Perm.swap x (r.getD k 0) (r.set k a)).trans
        (List.Perm.cons x (ih k a hk))).trans (List.Perm.swap a x r)

lemma swapList_length (l : List ℕ) (i j : ℕ) : (swapList l i j).length = l.length := by
  simp [swapList]

lemma swapList_perm : ∀ (l : List ℕ) (i j : ℕ), i < l.length → j < l.length →
    (swapList l i j).Perm l := by
  intro l
  induction l with
  | nil =>
    intro i j hi _
    simp at hi
  | cons x r ih =>
    intro i j hi hj
    cases i with
    | zero =>
      cases j with
      | zero =>
        simp only [swapList, List.getD_cons_zero, List.set_cons_zero]
        exact List.Perm.refl _
      | succ m =>
        have hm : m < r.length := by simpa using hj
        simp only [swapList, List.getD_cons_zero, List.getD_cons_succ,
          List.set_cons_zero, List.set_cons_succ]
        exact getD_cons_set_perm r m x hm
    | succ n =>
      have hn : n < r.length := by simpa using hi
      cases j with
      | zero =>
        simp only [swapList, List.getD_cons_zero, List.getD_cons_succ,
          List.set_cons_zero, List.set_cons_succ]
        exact getD_cons_set_perm r n x hn
      | succ m =>
        have hm : m < r.length := by simpa using hj
        simp only [swapList, List.getD_cons_succ, List.set_cons_succ]
        exact List.Perm.cons x (ih n m hn hm)

lemma fisherYates_perm (f : ℕ → ℕ) :
    ∀ (i : ℕ) (l : List ℕ), i < l.length → (fisherYates f i l).Perm l := by
  intro i
  induction i with
  | zero =>
    intro l _
    exact List.Perm.refl _
  | succ k ih =>
    intro l hl
    rw [fisherYates]
    have hj : f (k + 1) % (k + 2) < l.length := by
      have := Nat.mod_lt (f (k + 1)) (by omega : 0 < k + 2)
      omega
    have hswap := swapList_perm l (k + 1) (f (k + 1) % (k + 2)) hl hj
    have hlen := swapList_length l (k + 1) (f (k + 1) % (k + 2))
    exact (ih _ (by rw [hlen]; omega)).trans hswap

end HyperchaosBoxGenerator

/-- C6: for every chaotic swap stream (hence every shared secret) and every
box size N, both generate and generate_with_avalanche return a permutation of
the list [0, ..., N-1]: each value appears exactly once. -/
theorem HyperchaosBoxGenerator.generate_perm (swapVal avalVal : ℕ → ℕ) (boxSize : ℕ) :
    (HyperchaosBoxGenerator.generate swapVal boxSize).Perm (List.range boxSize)
    ∧ (HyperchaosBoxGenerator.generateWithAvalanche swapVal avalVal boxSize).Perm
        (List.range boxSize) := by
  rcases Nat.eq_zero_or_pos boxSize with h0 | hpos
  · subst h0
    exact ⟨List.Perm.refl _, List.Perm.refl _⟩
  · have h1 : (generate swapVal boxSize).Perm (List.range boxSize) := by
      unfold generate
      exact fisherYates_perm swapVal (boxSize - 1) (List.range boxSize)
        (by rw [List.length_range]; omega)
    refine ⟨h1, ?_⟩
    unfold generateWithAvalanche
    have hlen : (generate swapVal boxSize).length = boxSize := by
      rw [h1.length_eq, List.length_range]
    exact (fisherYates_perm avalVal (boxSize - 1) _ (by rw [hlen]; omega)).trans h1

/-- C8 counterexample: with requested count n = 0 (and a valid 5-component
state), `ChaosInterface.generate_bytes` returns 1 byte, not 0: the interface
clamps `num_bytes` to `max(1, num_bytes)` (src/chaos/chaotic.py, line 63). -/
theorem ChaosInterface.generate_bytes_zero_cex :
    (ChaosInterface.generate_bytes (fun _ _ => 0) [1, 1, 1, 1, 1] 0 100).length = 1
    ∧ (ChaosInterface.generate_bytes (fun _ _ => 0) [1, 1, 1, 1, 1] 0 100).length ≠ 0 := by
  have h1 : (ChaosInterface.generate_bytes (fun _ _ => 0) [1, 1, 1, 1, 1] 0 100).length = 1 :=
    rfl
  exact ⟨h1, by rw [h1]; norm_num⟩

/-- C8 as amended: `HyperchaosSystem.generate_bytes` returns exactly n bytes
for every n, and `ChaosInterface.generate_bytes` returns exactly n bytes for
every n ≥ 1 (a requested count of 0 is clamped to 1). -/
theorem ChaosInterface.generate_bytes_length :
    (∀ (sample : ℕ → ℕ) (n skip : ℕ),
      (HyperchaosSystem.generate_bytes sample n skip).length = n)
    ∧ ∀ (traj : List ℚ → ℕ → ℕ) (state : List ℚ) (n skip : ℕ), 1 ≤ n →
      (ChaosInterface.generate_bytes traj state n skip).length = n := by
  constructor
  · intro sample n skip
    simp [HyperchaosSystem.generate_bytes]
  · intro traj state n skip hn
    simp only [ChaosInterface.generate_bytes, HyperchaosSystem.generate_bytes,
      List.length_map, List.length_range]
    omega

/-- Witness for C8 (amended) at n = 3. -/
theorem ChaosInterface.generate_bytes_length_witness :
    1 ≤ 3
    ∧ (ChaosInterface.generate_bytes (fun _ _ => 0) [1, 1, 1, 1, 1] 3 100).length = 3 :=
  ⟨by norm_num,
    ChaosInterface.generate_bytes_length.2 (fun _ _ => 0) [1, 1, 1, 1, 1] 3 100
      (by norm_num)⟩

/-- C9 counterexample: a state of length 6 (not equal to 5) is passed through
unchanged by the interface validation, not padded or truncated to length 5:
the code only fixes states with `len(initial_state) < 5`. -/
theorem ChaosInterface.fixState_six_cex :
    ChaosInterface.fixState [1, 1, 1, 1, 1, 1] = [1, 1, 1, 1, 1, 1]
    ∧ (ChaosInterface.fixState [1, 1, 1, 1, 1, 1]).length ≠ 5 := by
  constructor
  · rfl
  · intro h
    simp [ChaosInterface.fixState] at h

/-- C9 as amended: every initial state SHORTER than 5 components is padded
with the fixed constant 0.1 to length exactly 5 rather than raising an
error; states of length 5 or more pass through unchanged. -/
theorem ChaosInterface.fixState_pads_short (s : List ℚ) (h : s.length < 5) :
    ChaosInterface.fixState s = s ++ List.replicate (5 - s.length) (1/10)
    ∧ (ChaosInterface.fixState s).length = 5 := by
  constructor
  · rw [ChaosInterface.fixState, if_pos h]
  · rw [ChaosInterface.fixState, if_pos h, List.length_append, List.length_replicate]
    omega

/-- Witness for C9 (amended) at the length-3 state [1, 2, 3]. -/
theorem ChaosInterface.fixState_pads_short_witness :
    ([1, 2, 3] : List ℚ).length < 5
    ∧ (ChaosInterface.fixState [1, 2, 3]
        = [1, 2, 3] ++ List.replicate (5 - ([1, 2, 3] : List ℚ).length) (1/10)
      ∧ (ChaosInterface.fixState [1, 2, 3]).length = 5) :=
  ⟨by norm_num, ChaosInterface.fixState_pads_short [1, 2, 3] (by norm_num)⟩
